import Mathlib

/-!
# Verification of the botan CLI number-theory commands (src/cli/math.cpp)

This file is a shallow embedding of the integer-factorization commands of
the botan CLI: the Small-Factor Remover (Factor::remove_small_factors), the
Rho Search (Factor::rho, Pollard rho with Brent cycle finding), the
Factorization Orchestrator (Factor::factorize), the factor command surface
(Factor::go) and the modular-inverse command (Modular_Inverse::go).

Modelling conventions, stated once here:

* Arbitrary-precision integers (Botan::BigInt) are modelled by Nat.  All the
  values the factorization code manipulates are nonnegative; BigInt division
  and comparison agree with Nat division and comparison there.
* The while-loops of the source can diverge (the even loop on input 0, the
  retry loop around rho when every attempt fails), so loops are embedded
  with an explicit fuel parameter and an Option result; none means the loop
  did not exit within the given fuel.  Termination facts are stated as fuel
  sufficiency, divergence as none for every fuel.
* Modelled from the spec: the Small-Prime Table (Botan::PRIMES, declared in
  a unit not under src/) is, per the spec's data model, an immutable
  ascending table of odd primes below 2^16, no duplicates; 2 is handled by
  the preceding even loop.  Definitions are parametric in that table and the
  theorems carry its documented invariants as hypotheses.
* Modelled from the spec: the Modular Transform Domain (Montgomery form,
  botan's monty.h, not under src/) is a bijective representation of residues
  modulo n in which squaring, adding one, subtraction and multiplication act
  as the corresponding operations mod n on the represented residues, and
  value() leaves the domain.  The embedding of rho tracks the represented
  residues directly, as the spec describes the iteration (x = x*x + 1,
  t = y - x, z = z * t, all mod n).  The randomly sampled seed enters as an
  explicit parameter (the represented residue of the sampled element), and
  the process-wide RNG is modelled as an explicit list of seeds.
* Modelled from the spec: the external probabilistic Primality Oracle
  (Botan::is_prime, not under src/) is idealized as exact primality.
-/

namespace Factor

/-- Modelled from the spec: the Primality Oracle, idealized as an exact
primality test returning a Boolean verdict. -/
def is_prime (n : ℕ) : Bool := decide (Nat.Prime n)

/-- The even loop of Factor::remove_small_factors (math.cpp lines 234-238):
while n is even, append 2 and divide n by 2.  Fuel-indexed; none means the
loop did not exit within the fuel (on input 0 it never exits). -/
def evenLoop : ℕ → ℕ → Option (List ℕ × ℕ)
  | 0, _ => none
  | fuel + 1, n =>
    if n % 2 = 0 then
      match evenLoop fuel (n / 2) with
      | none => none
      | some (fs, r) => some (2 :: fs, r)
    else
      some ([], n)

/-- The inner while loop of Factor::remove_small_factors (lines 254-258):
while x is not 1, divide x by the table prime and append the prime.  For a
non-prime or zero table entry this loop can fail to reach 1 (BigInt division
truncates), hence the fuel. -/
def innerPushes : ℕ → ℕ → ℕ → Option (List ℕ)
  | _, 0, _ => none
  | p, fuel + 1, x =>
    if x = 1 then some []
    else
      match innerPushes p fuel (x / p) with
      | none => none
      | some l => some (p :: l)

/-- The table scan of Factor::remove_small_factors (lines 240-260): for each
table prime p in order, stop as soon as n < p; otherwise let x = gcd(n, p),
skip p when x = 1, and otherwise divide n by x and run the inner push
loop. -/
def tableLoop : List ℕ → ℕ → ℕ → Option (List ℕ × ℕ)
  | [], _, n => some ([], n)
  | p :: ps, fuel, n =>
    if n < p then some ([], n)
    else if Nat.gcd n p = 1 then tableLoop ps fuel n
    else
      match innerPushes p fuel (Nat.gcd n p) with
      | none => none
      | some l =>
        match tableLoop ps fuel (n / Nat.gcd n p) with
        | none => none
        | some (fs, r) => some (l ++ fs, r)

/-- Factor::remove_small_factors (lines 230-263): the even loop followed by
the table scan; returns the removed factors and the residual value of n. -/
def remove_small_factors (table : List ℕ) (fuel n : ℕ) : Option (List ℕ × ℕ) :=
  match evenLoop fuel n with
  | none => none
  | some (fs, r) =>
    match tableLoop table fuel r with
    | none => none
    | some (gs, r') => some (fs ++ gs, r')

/-- One pseudo-random step of Factor::rho (lines 195-196): x = x^2 + 1,
computed on represented residues mod n. -/
def rhoX (n x : ℕ) : ℕ := (x * x + 1) % n

/-- The accumulated product update of Factor::rho (lines 198-201): t = y - x
(domain subtraction on residues below n), z = z * t, mod n. -/
def rhoZ (n x y z : ℕ) : ℕ := z * ((y + n - rhoX n x) % n) % n

/-- The loop of Factor::rho (lines 186-223).  State: iteration counter i,
doubling threshold k, current value x, checkpoint y, accumulated product z,
all residues represented mod n.  The counter cap 0xFFFF0000 (line 190)
bounds the iterations; the fuel argument drives the structural recursion and
is irrelevant once it is at least 0xFFFF0000 - i (rhoLoop_fuel below).
Returns the found divisor, or 0 (the failure sentinel, line 226) when the
attempt bails out at the cap or at a degenerate gcd d = n (line 208). -/
def rhoLoop (n : ℕ) : ℕ → ℕ → ℕ → ℕ → ℕ → ℕ → ℕ
  | 0, _, _, _, _, _ => 0
  | fuel + 1, i, k, x, y, z =>
    if 0xFFFF0000 ≤ i + 1 then 0
    else if i + 1 = k ∨ (i + 1) % 128 = 0 then
      if Nat.gcd (rhoZ n x y z) n = n then 0
      else if Nat.gcd (rhoZ n x y z) n ≠ 1 then Nat.gcd (rhoZ n x y z) n
      else if i + 1 = k then rhoLoop n fuel (i + 1) (2 * k) (rhoX n x) (rhoX n x) (1 % n)
      else rhoLoop n fuel (i + 1) k (rhoX n x) y (1 % n)
    else if i + 1 = k then rhoLoop n fuel (i + 1) (2 * k) (rhoX n x) (rhoX n x) (rhoZ n x y z)
    else rhoLoop n fuel (i + 1) k (rhoX n x) y (rhoZ n x y z)

/-- Factor::rho (lines 170-227), one attempt: x and y start at the sampled
seed (x0 is the represented residue of the Montgomery element built from the
random sample), z starts at one, i = 1, k = 2. -/
def rho (n x0 : ℕ) : ℕ :=
  rhoLoop n 0xFFFF0000 1 2 (x0 % n) (x0 % n) (1 % n)

/-- The retry loop of Factor::factorize (lines 148-152): invoke rho with
fresh seeds until an attempt returns a nonzero divisor; consumes the
explicit seed list, none when the seeds run out before a success. -/
def rhoRetry (n : ℕ) : List ℕ → Option (ℕ × List ℕ)
  | [] => none
  | s :: rest =>
    if rho n s = 0 then rhoRetry n rest
    else some (rho n s, rest)

/-- The while loop of Factor::factorize (lines 140-161), with the recursive
factorize call on the rho divisor inlined (remove_small_factors followed by
this same loop on the residual): while n is not 1, append n and stop if the
oracle says prime; otherwise obtain a divisor a from retried rho attempts,
append the full factorization of a, and continue with n / a. -/
def facLoop (table : List ℕ) : ℕ → ℕ → List ℕ → Option (List ℕ × List ℕ)
  | 0, _, _ => none
  | fuel + 1, n, seeds =>
    if n = 1 then some ([], seeds)
    else if is_prime n = true then some ([n], seeds)
    else
      match rhoRetry n seeds with
      | none => none
      | some (a, s1) =>
        match remove_small_factors table (a + 2) a with
        | none => none
        | some (sf, r) =>
          match facLoop table fuel r s1 with
          | none => none
          | some (sub, s2) =>
            match facLoop table fuel (n / a) s2 with
            | none => none
            | some (rest, s3) => some (sf ++ (sub ++ rest), s3)

/-- Factor::factorize (lines 134-164): remove small factors of a private
copy of the input, then run the main loop on the residual.  The internal
fuel n + 2 given to remove_small_factors is enough for every positive n
(the even loop runs at most log2 n + 1 times, the inner push loop at most
twice per prime entry); on n = 0 remove_small_factors is none for every
fuel, matching the divergence of the source's even loop. -/
def factorize (table : List ℕ) (fuel n : ℕ) (seeds : List ℕ) : Option (List ℕ × List ℕ) :=
  match remove_small_factors table (n + 2) n with
  | none => none
  | some (sf, r) =>
    match facLoop table fuel r seeds with
    | none => none
    | some (l, s) => some (sf ++ l, s)

/-- The argument Factor::go passes to factorize (lines 122-124): go parses
n and immediately calls factorize(n, rng()); there is no validation between
the parse and the call, so the passed value is the parsed input itself. -/
def goFactorizeArg (n : ℕ) : ℕ := n

/-- Factor::go (lines 120-130): factor the parsed integer, sort the factor
list ascending (std::sort, modelled by insertionSort), and print the
original n as the header followed by the sorted factors. -/
def go (table : List ℕ) (fuel n : ℕ) (seeds : List ℕ) : Option (ℕ × List ℕ) :=
  match factorize table fuel n seeds with
  | none => none
  | some (l, _) => some (n, List.insertionSort (fun a b => a ≤ b) l)

end Factor

namespace Modular_Inverse

/-- Modelled from the spec: the external Integer modular-inverse primitive
(Botan::inverse_mod, not under src/): returns the inverse of n modulo m,
failing when n has no inverse, that is when n is not coprime with m. -/
def inverse_mod (n m : ℕ) : Option ℕ :=
  if Nat.gcd n m = 1 then some ((Nat.gcdA n m % (m : ℤ)).toNat)
  else none

/-- Modular_Inverse::go (math.cpp lines 33-39): parse n and mod and emit
the modular inverse; the command fails exactly when the primitive does. -/
def go (n m : ℕ) : Option ℕ := inverse_mod n m

end Modular_Inverse

namespace Factor

/-- The even loop never exits on input 0: 0 is even and 0 / 2 = 0, so the
loop consumes all fuel without reaching an odd value. -/
theorem evenLoop_zero : ∀ fuel, evenLoop fuel 0 = none := by
  intro fuel
  induction fuel with
  | zero => rfl
  | succ f ih => simp [evenLoop, ih]

/-- Soundness of the even loop: it returns only 2s, the input splits as the
emitted power of two times the residual, and the residual is odd. -/
theorem evenLoop_sound : ∀ fuel n fs r, evenLoop fuel n = some (fs, r) →
    (∀ x ∈ fs, x = 2) ∧ n = 2 ^ fs.length * r ∧ r % 2 = 1 := by
  intro fuel
  induction fuel with
  | zero => intro n fs r h; simp [evenLoop] at h
  | succ f ih =>
    intro n fs r h
    simp only [evenLoop] at h
    split at h
    · rename_i hev
      split at h
      · exact absurd h (by simp)
      · rename_i fs' r' heq
        obtain ⟨h1, h2, h3⟩ := ih (n / 2) fs' r' heq
        have h2n : 2 ∣ n := Nat.dvd_of_mod_eq_zero hev
        cases h
        refine ⟨?_, ?_, h3⟩
        · intro x hx
          rcases List.mem_cons.mp hx with hx | hx
          · exact hx
          · exact h1 x hx
        · calc n = 2 * (n / 2) := (Nat.mul_div_cancel' h2n).symm
            _ = 2 * (2 ^ fs'.length * r) := by rw [h2]
            _ = 2 ^ (2 :: fs').length * r := by
                simp [List.length_cons, pow_succ]; ring
    · rename_i hev
      cases h
      exact ⟨by simp, by simp, by omega⟩

/-- Every element the inner push loop emits is the table entry itself. -/
theorem innerPushes_mem (p : ℕ) : ∀ fuel x l, innerPushes p fuel x = some l →
    ∀ e ∈ l, e = p := by
  intro fuel
  induction fuel with
  | zero => intro x l h; simp [innerPushes] at h
  | succ f ih =>
    intro x l h e he
    simp only [innerPushes] at h
    split at h
    · cases h; simp at he
    · split at h
      · exact absurd h (by simp)
      · rename_i l' heq
        cases h
        rcases List.mem_cons.mp he with he | he
        · exact he
        · exact ih (x / p) l' heq e he

/-- Starting the inner push loop at a prime table entry p emits exactly one
copy of p (the gcd with a prime is either 1 or the prime itself). -/
theorem innerPushes_prime_self {p : ℕ} (hp : Nat.Prime p) :
    ∀ fuel l, innerPushes p fuel p = some l → l = [p] := by
  intro fuel l h
  cases fuel with
  | zero => simp [innerPushes] at h
  | succ f =>
    simp only [innerPushes] at h
    rw [if_neg hp.ne_one, Nat.div_self hp.pos] at h
    cases f with
    | zero => simp [innerPushes] at h
    | succ g =>
      simp only [innerPushes, if_pos rfl] at h
      exact (Option.some.inj h).symm

/-- Soundness of the table scan over a table of primes: the input splits as
the product of the emitted factors times the residual, and every emitted
factor is a table entry. -/
theorem tableLoop_sound : ∀ (table : List ℕ), (∀ q ∈ table, Nat.Prime q) →
    ∀ fuel m fs r, tableLoop table fuel m = some (fs, r) →
      m = fs.prod * r ∧ ∀ x ∈ fs, x ∈ table := by
  intro table
  induction table with
  | nil =>
    intro _ fuel m fs r h
    simp only [tableLoop] at h
    cases h
    exact ⟨by simp, by simp⟩
  | cons q ps ih =>
    intro hT fuel m fs r h
    have hq : Nat.Prime q := hT q (List.mem_cons_self q ps)
    have hps : ∀ x ∈ ps, Nat.Prime x := fun x hx => hT x (List.mem_cons_of_mem q hx)
    simp only [tableLoop] at h
    split at h
    · cases h
      exact ⟨by simp, by simp⟩
    · split at h
      · obtain ⟨h1, h2⟩ := ih hps fuel m fs r h
        exact ⟨h1, fun x hx => List.mem_cons_of_mem q (h2 x hx)⟩
      · rename_i hlt hg
        have hgd : Nat.gcd m q = q :=
          (hq.eq_one_or_self_of_dvd _ (Nat.gcd_dvd_right m q)).resolve_left hg
        have hqm : q ∣ m := by rw [← hgd]; exact Nat.gcd_dvd_left m q
        rw [hgd] at h
        split at h
        · exact absurd h (by simp)
        · rename_i l hl
          split at h
          · exact absurd h (by simp)
          · rename_i fs' r' hrec
            have hlp : l = [q] := innerPushes_prime_self hq fuel l hl
            obtain ⟨h1, h2⟩ := ih hps fuel (m / q) fs' r' hrec
            cases h
            subst hlp
            constructor
            · calc m = q * (m / q) := (Nat.mul_div_cancel' hqm).symm
                _ = q * (fs'.prod * r) := by rw [h1]
                _ = ([q] ++ fs').prod * r := by simp; ring
            · intro x hx
              rcases List.mem_append.mp hx with hx | hx
              · simp at hx; rw [hx]; exact List.mem_cons_self q ps
              · exact List.mem_cons_of_mem q (h2 x hx)

/-- Product of a list all of whose elements are 2. -/
theorem prod_of_all_two : ∀ (l : List ℕ), (∀ x ∈ l, x = 2) → l.prod = 2 ^ l.length := by
  intro l
  induction l with
  | nil => simp
  | cons a t ih =>
    intro h
    have ha : a = 2 := h a (List.mem_cons_self a t)
    have ht : ∀ x ∈ t, x = 2 := fun x hx => h x (List.mem_cons_of_mem a hx)
    simp [ha, ih ht, pow_succ]; ring

/-- Soundness of the Small-Factor Remover over a table of primes: the input
equals the product of the removed factors times the residual, and every
removed factor is 2 or a table entry and divides the input. -/
theorem remove_small_factors_sound (table : List ℕ) (hT : ∀ q ∈ table, Nat.Prime q)
    (fuel n : ℕ) (fs : List ℕ) (r : ℕ)
    (h : remove_small_factors table fuel n = some (fs, r)) :
    n = fs.prod * r ∧ ∀ x ∈ fs, (x = 2 ∨ x ∈ table) ∧ x ∣ n := by
  simp only [remove_small_factors] at h
  split at h
  · exact absurd h (by simp)
  · rename_i fsE rE hE
    split at h
    · exact absurd h (by simp)
    · rename_i fsT rT hTb
      cases h
      obtain ⟨hE2, hEeq, hEodd⟩ := evenLoop_sound fuel n fsE rE hE
      obtain ⟨hT1, hT2⟩ := tableLoop_sound table hT fuel rE fsT r hTb
      have hn : n = (fsE ++ fsT).prod * r := by
        rw [List.prod_append, prod_of_all_two fsE hE2, hEeq, hT1]; ring
      refine ⟨hn, ?_⟩
      intro x hx
      have hdvd : x ∣ n := (List.dvd_prod hx).trans ⟨r, hn⟩
      rcases List.mem_append.mp hx with hm | hm
      · exact ⟨Or.inl (hE2 x hm), hdvd⟩
      · exact ⟨Or.inr (hT2 x hm), hdvd⟩

/-- Once the iteration counter has reached the cap, the rho loop returns
the failure sentinel 0 regardless of the remaining fuel. -/
theorem rhoLoop_exhaust (n : ℕ) : ∀ fuel i k x y z, 0xFFFF0000 ≤ i + 1 →
    rhoLoop n fuel i k x y z = 0 := by
  intro fuel i k x y z h
  cases fuel with
  | zero => rfl
  | succ f => simp only [rhoLoop]; rw [if_pos h]

/-- Every value the rho loop returns is either the failure sentinel 0 or a
divisor of n that is neither 1 nor n (the d = n case breaks out as failed,
the d = 1 case continues searching). -/
theorem rhoLoop_cases (n : ℕ) : ∀ fuel i k x y z,
    rhoLoop n fuel i k x y z = 0 ∨
      (rhoLoop n fuel i k x y z ∣ n ∧ rhoLoop n fuel i k x y z ≠ 1 ∧
        rhoLoop n fuel i k x y z ≠ n) := by
  intro fuel
  induction fuel with
  | zero => intro i k x y z; exact Or.inl rfl
  | succ f ih =>
    intro i k x y z
    simp only [rhoLoop]
    split_ifs with h1 h2 h3 h4 h5 h6
    · exact Or.inl rfl
    · exact Or.inl rfl
    · exact Or.inr ⟨Nat.gcd_dvd_right _ n, h4, h3⟩
    · exact ih _ _ _ _ _
    · exact ih _ _ _ _ _
    · exact ih _ _ _ _ _
    · exact ih _ _ _ _ _

/-- The fuel driving the structural recursion of the rho loop is irrelevant
as soon as it covers the distance from the iteration counter to the cap:
the loop exits within a bounded number of iterations. -/
theorem rhoLoop_fuel (n : ℕ) : ∀ f1 f2 i k x y z,
    0xFFFF0000 - (i + 1) ≤ f1 → 0xFFFF0000 - (i + 1) ≤ f2 →
    rhoLoop n f1 i k x y z = rhoLoop n f2 i k x y z := by
  intro f1
  induction f1 with
  | zero =>
    intro f2 i k x y z h1 h2
    have hc : 0xFFFF0000 ≤ i + 1 := by omega
    rw [rhoLoop_exhaust n 0 i k x y z hc, rhoLoop_exhaust n f2 i k x y z hc]
  | succ a ih =>
    intro f2 i k x y z h1 h2
    by_cases hc : 0xFFFF0000 ≤ i + 1
    · rw [rhoLoop_exhaust n (a + 1) i k x y z hc, rhoLoop_exhaust n f2 i k x y z hc]
    · cases f2 with
      | zero => omega
      | succ b =>
        simp only [rhoLoop]
        rw [if_neg hc, if_neg hc]
        have hia : 0xFFFF0000 - (i + 1 + 1) ≤ a := by omega
        have hib : 0xFFFF0000 - (i + 1 + 1) ≤ b := by omega
        split_ifs with hB hC hD hE
        · rfl
        · rfl
        · exact ih b (i + 1) (2 * k) (rhoX n x) (rhoX n x) (1 % n) hia hib
        · exact ih b (i + 1) k (rhoX n x) y (1 % n) hia hib
        · exact ih b (i + 1) (2 * k) (rhoX n x) (rhoX n x) (rhoZ n x y z) hia hib
        · exact ih b (i + 1) k (rhoX n x) y (rhoZ n x y z) hia hib

/-- Dichotomy for a single rho attempt: failure sentinel, or a divisor of n
other than 1 and n. -/
theorem rho_cases (n x0 : ℕ) : rho n x0 = 0 ∨
    (rho n x0 ∣ n ∧ rho n x0 ≠ 1 ∧ rho n x0 ≠ n) :=
  rhoLoop_cases n 0xFFFF0000 1 2 (x0 % n) (x0 % n) (1 % n)

/-- The retry loop only hands the orchestrator a nonzero divisor of n. -/
theorem rhoRetry_sound (n : ℕ) : ∀ seeds a s1, rhoRetry n seeds = some (a, s1) →
    a ≠ 0 ∧ a ∣ n := by
  intro seeds
  induction seeds with
  | nil => intro a s1 h; simp [rhoRetry] at h
  | cons s rest ih =>
    intro a s1 h
    simp only [rhoRetry] at h
    split at h
    · exact ih a s1 h
    · rename_i hne
      cases h
      refine ⟨hne, ?_⟩
      rcases rho_cases n s with h0 | ⟨hd, _, _⟩
      · exact absurd h0 hne
      · exact hd

/-- Main loop invariant of the Orchestrator: whatever list the loop returns
multiplies back to its input, and every entry is prime. -/
theorem facLoop_sound (table : List ℕ) (hT : ∀ q ∈ table, Nat.Prime q) :
    ∀ fuel n seeds l s, facLoop table fuel n seeds = some (l, s) →
      l.prod = n ∧ ∀ p ∈ l, Nat.Prime p := by
  intro fuel
  induction fuel with
  | zero => intro n seeds l s h; simp [facLoop] at h
  | succ f ih =>
    intro n seeds l s h
    simp only [facLoop] at h
    split at h
    · rename_i hn1
      cases h
      exact ⟨by simp [hn1], by simp⟩
    · split at h
      · rename_i hn1 hpr
        cases h
        have hp : Nat.Prime n := of_decide_eq_true hpr
        exact ⟨by simp, by simp [hp]⟩
      · rename_i hn1 hpr
        split at h
        · exact absurd h (by simp)
        · rename_i a s1 hretry
          split at h
          · exact absurd h (by simp)
          · rename_i sf r0 hsf
            split at h
            · exact absurd h (by simp)
            · rename_i sub s2 hsub
              split at h
              · exact absurd h (by simp)
              · rename_i rest s3 hrest
                cases h
                obtain ⟨ha0, had⟩ := rhoRetry_sound n seeds a s1 hretry
                obtain ⟨hprod, hmem⟩ :=
                  remove_small_factors_sound table hT (a + 2) a sf r0 hsf
                obtain ⟨hsubp, hsubm⟩ := ih r0 s1 sub s2 hsub
                obtain ⟨hrestp, hrestm⟩ := ih (n / a) s2 rest s hrest
                constructor
                · have hsplit : (sf ++ (sub ++ rest)).prod =
                      sf.prod * (sub.prod * rest.prod) := by
                    simp [List.prod_append]
                  rw [hsplit, hsubp, hrestp, ← mul_assoc, ← hprod]
                  exact Nat.mul_div_cancel' had
                · intro p hp
                  rcases List.mem_append.mp hp with hp | hp
                  · rcases (hmem p hp).1 with h2 | ht
                    · rw [h2]; exact Nat.prime_two
                    · exact hT p ht
                  · rcases List.mem_append.mp hp with hp | hp
                    · exact hsubm p hp
                    · exact hrestm p hp

/-- Soundness of the Orchestrator: a returned factor list multiplies back
to the input and consists of primes. -/
theorem factorize_sound (table : List ℕ) (hT : ∀ q ∈ table, Nat.Prime q)
    (fuel n : ℕ) (seeds l s : List ℕ)
    (h : factorize table fuel n seeds = some (l, s)) :
    l.prod = n ∧ ∀ p ∈ l, Nat.Prime p := by
  simp only [factorize] at h
  split at h
  · exact absurd h (by simp)
  · rename_i sf r hsf
    split at h
    · exact absurd h (by simp)
    · rename_i l2 s2 hl2
      cases h
      obtain ⟨hprod, hmem⟩ := remove_small_factors_sound table hT (n + 2) n sf r hsf
      obtain ⟨h2p, h2m⟩ := facLoop_sound table hT fuel r seeds l2 s hl2
      constructor
      · rw [List.prod_append, h2p, ← hprod]
      · intro p hp
        rcases List.mem_append.mp hp with hp | hp
        · rcases (hmem p hp).1 with h2 | ht
          · rw [h2]; exact Nat.prime_two
          · exact hT p ht
        · exact h2m p hp

/-- A value absent from the table is never emitted by the table scan. -/
theorem tableLoop_count_notMem (p : ℕ) : ∀ (table : List ℕ), p ∉ table →
    ∀ fuel m fs r, tableLoop table fuel m = some (fs, r) → fs.count p = 0 := by
  intro table
  induction table with
  | nil =>
    intro _ fuel m fs r h
    simp only [tableLoop] at h
    cases h
    simp
  | cons q ps ih =>
    intro hmem fuel m fs r h
    have hpq : p ≠ q := fun he => hmem (he ▸ List.mem_cons_self q ps)
    have hps : p ∉ ps := fun he => hmem (List.mem_cons_of_mem q he)
    simp only [tableLoop] at h
    split at h
    · cases h; simp
    · split at h
      · exact ih hps fuel m fs r h
      · split at h
        · exact absurd h (by simp)
        · rename_i l hl
          split at h
          · exact absurd h (by simp)
          · rename_i fs' r' hrec
            cases h
            rw [List.count_append]
            have hl0 : l.count p = 0 := by
              rw [List.count_eq_zero]
              intro hin
              exact hpq (innerPushes_mem q fuel _ l hl p hin)
            rw [hl0, ih hps fuel _ fs' r hrec]

/-- For a prime p absent from a table of primes, the table scan preserves
every power of p dividing the working value. -/
theorem tableLoop_dvd_notMem {p : ℕ} (hp : Nat.Prime p) :
    ∀ (table : List ℕ), (∀ q ∈ table, Nat.Prime q) → p ∉ table →
    ∀ fuel m fs r k, tableLoop table fuel m = some (fs, r) →
      p ^ k ∣ m → p ^ k ∣ r := by
  intro table
  induction table with
  | nil =>
    intro _ _ fuel m fs r k h hdvd
    simp only [tableLoop] at h
    cases h
    exact hdvd
  | cons q ps ih =>
    intro hT hmem fuel m fs r k h hdvd
    have hq : Nat.Prime q := hT q (List.mem_cons_self q ps)
    have hps : ∀ x ∈ ps, Nat.Prime x := fun x hx => hT x (List.mem_cons_of_mem q hx)
    have hpq : p ≠ q := fun he => hmem (he ▸ List.mem_cons_self q ps)
    have hpps : p ∉ ps := fun he => hmem (List.mem_cons_of_mem q he)
    simp only [tableLoop] at h
    split at h
    · cases h; exact hdvd
    · split at h
      · exact ih hps hpps fuel m fs r k h hdvd
      · rename_i hlt hg
        have hgd : Nat.gcd m q = q :=
          (hq.eq_one_or_self_of_dvd _ (Nat.gcd_dvd_right m q)).resolve_left hg
        have hqm : q ∣ m := by rw [← hgd]; exact Nat.gcd_dvd_left m q
        rw [hgd] at h
        split at h
        · exact absurd h (by simp)
        · rename_i l hl
          split at h
          · exact absurd h (by simp)
          · rename_i fs' r' hrec
            cases h
            have hco : Nat.Coprime (p ^ k) q :=
              Nat.Coprime.pow_left k ((Nat.coprime_primes hp hq).mpr hpq)
            have hdvd' : p ^ k ∣ m / q := by
              refine hco.dvd_of_dvd_mul_right ?_
              rw [Nat.div_mul_cancel hqm]
              exact hdvd
            exact ih hps hpps fuel (m / q) fs' r k hrec hdvd'

/-- For a prime p occurring once in a duplicate-free table of primes, the
table scan emits p at most once, and a square factor of p survives in the
residual (only one copy is removed). -/
theorem tableLoop_mem_once {p : ℕ} :
    ∀ (table : List ℕ), (∀ q ∈ table, Nat.Prime q) → table.Nodup → p ∈ table →
    ∀ fuel m fs r, tableLoop table fuel m = some (fs, r) →
      fs.count p ≤ 1 ∧ (p ^ 2 ∣ m → p ∣ r) := by
  intro table
  induction table with
  | nil => intro _ _ hmem; exact absurd hmem (List.not_mem_nil p)
  | cons q ps ih =>
    intro hT hN hmem fuel m fs r h
    have hq : Nat.Prime q := hT q (List.mem_cons_self q ps)
    have hps : ∀ x ∈ ps, Nat.Prime x := fun x hx => hT x (List.mem_cons_of_mem q hx)
    have hqps : q ∉ ps := (List.nodup_cons.mp hN).1
    have hNps : ps.Nodup := (List.nodup_cons.mp hN).2
    have hp : Nat.Prime p := hT p hmem
    by_cases hpq : p = q
    · subst hpq
      simp only [tableLoop] at h
      split at h
      · cases h
        exact ⟨by simp, fun hsq => (dvd_pow_self p two_ne_zero).trans hsq⟩
      · split at h
        · rename_i hlt hg1
          refine ⟨by rw [tableLoop_count_notMem p ps hqps fuel m fs r h]; omega, ?_⟩
          intro hsq
          have hpm : p ∣ m := (dvd_pow_self p two_ne_zero).trans hsq
          have hdg : p ∣ Nat.gcd m p := Nat.dvd_gcd hpm dvd_rfl
          rw [hg1] at hdg
          exact absurd (Nat.dvd_one.mp hdg) hp.ne_one
        · rename_i hlt hg
          have hgd : Nat.gcd m p = p :=
            (hp.eq_one_or_self_of_dvd _ (Nat.gcd_dvd_right m p)).resolve_left hg
          rw [hgd] at h
          split at h
          · exact absurd h (by simp)
          · rename_i l hl
            split at h
            · exact absurd h (by simp)
            · rename_i fs' r' hrec
              cases h
              have hlp : l = [p] := innerPushes_prime_self hp fuel l hl
              subst hlp
              constructor
              · rw [List.count_append,
                  tableLoop_count_notMem p ps hqps fuel (m / p) fs' r hrec]
                simp
              · intro hsq
                rw [pow_two] at hsq
                have hdr : p ∣ m / p := Nat.dvd_div_of_mul_dvd hsq
                have := tableLoop_dvd_notMem hp ps hps hqps fuel (m / p) fs' r 1 hrec
                rw [pow_one] at this
                exact this hdr
    · have hpps : p ∈ ps := (List.mem_cons.mp hmem).resolve_left hpq
      simp only [tableLoop] at h
      split at h
      · cases h
        exact ⟨by simp, fun hsq => (dvd_pow_self p two_ne_zero).trans hsq⟩
      · split at h
        · exact ih hps hNps hpps fuel m fs r h
        · rename_i hlt hg
          have hgd : Nat.gcd m q = q :=
            (hq.eq_one_or_self_of_dvd _ (Nat.gcd_dvd_right m q)).resolve_left hg
          have hqm : q ∣ m := by rw [← hgd]; exact Nat.gcd_dvd_left m q
          rw [hgd] at h
          split at h
          · exact absurd h (by simp)
          · rename_i l hl
            split at h
            · exact absurd h (by simp)
            · rename_i fs' r' hrec
              cases h
              obtain ⟨hc, hd⟩ := ih hps hNps hpps fuel (m / q) fs' r hrec
              constructor
              · rw [List.count_append]
                have hl0 : l.count p = 0 := by
                  rw [List.count_eq_zero]
                  intro hin
                  exact hpq (innerPushes_mem q fuel _ l hl p hin)
                rw [hl0]
                omega
              · intro hsq
                have hco : Nat.Coprime (p ^ 2) q :=
                  Nat.Coprime.pow_left 2 ((Nat.coprime_primes hp hq).mpr hpq)
                have hsq' : p ^ 2 ∣ m / q := by
                  refine hco.dvd_of_dvd_mul_right ?_
                  rw [Nat.div_mul_cancel hqm]
                  exact hsq
                exact hd hsq'

/-- The table scan on working value 1 stops at the first entry (every table
prime exceeds 1) and emits nothing. -/
theorem tableLoop_one : ∀ (table : List ℕ), (∀ q ∈ table, 2 ≤ q) →
    ∀ fuel, tableLoop table fuel 1 = some ([], 1) := by
  intro table
  induction table with
  | nil => intro _ fuel; rfl
  | cons q ps _ =>
    intro hge fuel
    have : (1 : ℕ) < q := hge q (List.mem_cons_self q ps)
    simp only [tableLoop]
    rw [if_pos this]

/-- The inner push loop at a prime entry, with fuel at least 2, emits the
entry once. -/
theorem innerPushes_prime_eval {p : ℕ} (hp : Nat.Prime p) :
    ∀ fuel, 2 ≤ fuel → innerPushes p fuel p = some [p] := by
  intro fuel hf
  obtain ⟨g, rfl⟩ : ∃ g, fuel = g + 2 := ⟨fuel - 2, by omega⟩
  simp only [innerPushes]
  rw [if_neg hp.ne_one, Nat.div_self hp.pos, if_pos rfl]

/-- Scanning a table of primes with a prime working value n emits exactly
[n] with residual 1 if the scan reaches the entry n, and nothing with
residual n if it breaks off before (some entry exceeds n first). -/
theorem tableLoop_prime_mem {n : ℕ} (hn : Nat.Prime n) :
    ∀ (table : List ℕ), (∀ q ∈ table, Nat.Prime q) → n ∈ table →
    ∀ fuel, 2 ≤ fuel →
      tableLoop table fuel n = some ([n], 1) ∨ tableLoop table fuel n = some ([], n) := by
  intro table
  induction table with
  | nil => intro _ hmem; exact absurd hmem (List.not_mem_nil n)
  | cons q ps ih =>
    intro hT hmem fuel hf
    have hq : Nat.Prime q := hT q (List.mem_cons_self q ps)
    have hps : ∀ x ∈ ps, Nat.Prime x := fun x hx => hT x (List.mem_cons_of_mem q hx)
    by_cases hlt : n < q
    · right
      simp only [tableLoop]
      rw [if_pos hlt]
    · by_cases hnq : n = q
      · subst hnq
        left
        have hgs : Nat.gcd n n = n := Nat.gcd_self n
        simp only [tableLoop, hgs, if_neg hlt, if_neg hn.ne_one,
          innerPushes_prime_eval hn fuel hf, Nat.div_self hn.pos,
          tableLoop_one ps (fun x hx => (hps x hx).two_le) fuel]
        simp
      · have hnps : n ∈ ps := (List.mem_cons.mp hmem).resolve_left hnq
        have hco : Nat.gcd n q = 1 := (Nat.coprime_primes hn hq).mpr hnq
        have step : tableLoop (q :: ps) fuel n = tableLoop ps fuel n := by
          simp only [tableLoop]
          rw [if_neg hlt, if_pos hco]
        rw [step]
        exact ih hps hnps fuel hf

/-- The even loop leaves an odd value untouched. -/
theorem evenLoop_odd (n : ℕ) (hodd : n % 2 = 1) :
    ∀ fuel, 1 ≤ fuel → evenLoop fuel n = some ([], n) := by
  intro fuel hf
  obtain ⟨g, rfl⟩ : ∃ g, fuel = g + 1 := ⟨fuel - 1, by omega⟩
  simp only [evenLoop]
  rw [if_neg (by omega)]

/-- The 2-adic valuation of 2 ^ k times an odd number is k. -/
theorem padic_two_char (k m : ℕ) (hm : m % 2 = 1) : padicValNat 2 (2 ^ k * m) = k := by
  have hm0 : m ≠ 0 := by omega
  have h2 : ¬ (2 : ℕ) ∣ m := by omega
  rw [padicValNat.mul (pow_ne_zero k two_ne_zero) hm0, padicValNat.prime_pow,
    padicValNat.eq_zero_of_not_dvd h2]
  omega

end Factor

/-- C1: for every integer n > 1, a factor list returned by the Orchestrator
(factorize) satisfies the round-trip law: the product of all entries equals
n, and every entry is verified prime by the Primality Oracle. -/
theorem factorize_round_trip (table : List ℕ) (hT : ∀ q ∈ table, Nat.Prime q)
    (fuel n : ℕ) (seeds l s : List ℕ) (hn : 1 < n)
    (h : Factor.factorize table fuel n seeds = some (l, s)) :
    l.prod = n ∧ ∀ p ∈ l, Factor.is_prime p = true := by
  obtain ⟨h1, h2⟩ := Factor.factorize_sound table hT fuel n seeds l s h
  refine ⟨h1, fun p hp => ?_⟩
  simp [Factor.is_prime, h2 p hp]

/-- Witness for C1 at table [3], n = 12: factorize returns [2, 2, 3]. -/
theorem factorize_round_trip_witness :
    (1 : ℕ) < 12 ∧
      (([2, 2, 3] : List ℕ).prod = 12 ∧
        ∀ p ∈ ([2, 2, 3] : List ℕ), Factor.is_prime p = true) :=
  ⟨by norm_num,
    factorize_round_trip [3] (by decide) 1 12 [] [2, 2, 3] [] (by norm_num) (by decide)⟩

/-- C2: for every composite n > 1, a rho attempt that returns a value other
than the failure sentinel 0 returns a nontrivial proper divisor d of n with
1 < d < n; in particular it never returns d = n as a success. -/
theorem rho_success_nontrivial (n x0 : ℕ) (hn : 1 < n) (hc : ¬ Nat.Prime n)
    (hnz : Factor.rho n x0 ≠ 0) :
    1 < Factor.rho n x0 ∧ Factor.rho n x0 < n ∧ Factor.rho n x0 ∣ n := by
  rcases Factor.rho_cases n x0 with h0 | ⟨hd, h1, hne⟩
  · exact absurd h0 hnz
  · have hle : Factor.rho n x0 ≤ n := Nat.le_of_dvd (by omega) hd
    exact ⟨by omega, by omega, hd⟩

/-- Witness for C2 at the composite n = 15 with seed 2: the attempt
returns 3, a nontrivial divisor. -/
theorem rho_success_nontrivial_witness :
    ¬ Nat.Prime 15 ∧ Factor.rho 15 2 ≠ 0 ∧
      (1 < Factor.rho 15 2 ∧ Factor.rho 15 2 < 15 ∧ Factor.rho 15 2 ∣ 15) :=
  ⟨by decide, by decide, rho_success_nontrivial 15 2 (by norm_num) (by decide) (by decide)⟩

/-- C3: a single rho attempt always terminates: its result is unchanged by
any fuel beyond the iteration cap 0xFFFF0000 (the loop exits within the
capped number of iterations), and it returns either the failure sentinel 0
or a nontrivial divisor of n. -/
theorem rho_attempt_bounded (n x0 : ℕ) (hn : 1 < n) (hc : ¬ Nat.Prime n) :
    (∀ fuel, 0xFFFF0000 ≤ fuel →
      Factor.rhoLoop n fuel 1 2 (x0 % n) (x0 % n) (1 % n) = Factor.rho n x0) ∧
    (Factor.rho n x0 = 0 ∨
      (1 < Factor.rho n x0 ∧ Factor.rho n x0 < n ∧ Factor.rho n x0 ∣ n)) := by
  constructor
  · intro fuel hfuel
    show Factor.rhoLoop n fuel 1 2 (x0 % n) (x0 % n) (1 % n) =
      Factor.rhoLoop n 0xFFFF0000 1 2 (x0 % n) (x0 % n) (1 % n)
    exact Factor.rhoLoop_fuel n fuel 0xFFFF0000 1 2 (x0 % n) (x0 % n) (1 % n)
      (by omega) (by omega)
  · rcases Factor.rho_cases n x0 with h0 | ⟨hd, h1, hne⟩
    · exact Or.inl h0
    · right
      have hnz : Factor.rho n x0 ≠ 0 := by
        intro hz
        rw [hz] at hd
        have h0n : n = 0 := Nat.eq_zero_of_zero_dvd hd
        omega
      have hle : Factor.rho n x0 ≤ n := Nat.le_of_dvd (by omega) hd
      exact ⟨by omega, by omega, hd⟩

/-- Witness for C3 at the composite n = 15 with seed 2 and a fuel one
above the cap. -/
theorem rho_attempt_bounded_witness :
    Factor.rhoLoop 15 (0xFFFF0000 + 1) 1 2 (2 % 15) (2 % 15) (1 % 15) = Factor.rho 15 2 ∧
      (Factor.rho 15 2 = 0 ∨
        (1 < Factor.rho 15 2 ∧ Factor.rho 15 2 < 15 ∧ Factor.rho 15 2 ∣ 15)) :=
  ⟨(rho_attempt_bounded 15 2 (by norm_num) (by decide)).1 (0xFFFF0000 + 1) (by norm_num),
    (rho_attempt_bounded 15 2 (by norm_num) (by decide)).2⟩

/-- C4: per call, the Small-Factor Remover emits each odd table prime p at
most once, and when p ^ 2 divides the input the residual keeps a copy of p
(only one occurrence is removed per call). -/
theorem remove_small_factors_once_per_odd_prime (table : List ℕ)
    (hT : ∀ q ∈ table, Nat.Prime q ∧ q % 2 = 1) (hN : table.Nodup)
    (p : ℕ) (hp : p ∈ table) (fuel n : ℕ) (fs : List ℕ) (r : ℕ)
    (h : Factor.remove_small_factors table fuel n = some (fs, r)) :
    fs.count p ≤ 1 ∧ (p ^ 2 ∣ n → p ∣ r) := by
  have hTp : ∀ q ∈ table, Nat.Prime q := fun q hq => (hT q hq).1
  have hpp : Nat.Prime p := hTp p hp
  have hpodd : p % 2 = 1 := (hT p hp).2
  simp only [Factor.remove_small_factors] at h
  split at h
  · exact absurd h (by simp)
  · rename_i fsE rE hE
    split at h
    · exact absurd h (by simp)
    · rename_i fsT rT hTb
      cases h
      obtain ⟨hE2, hEeq, hEodd⟩ := Factor.evenLoop_sound fuel n fsE rE hE
      obtain ⟨hcT, hdT⟩ := Factor.tableLoop_mem_once table hTp hN hp fuel rE fsT r hTb
      constructor
      · rw [List.count_append]
        have hcE : fsE.count p = 0 := by
          rw [List.count_eq_zero]
          intro hin
          have := hE2 p hin
          omega
        omega
      · intro hsq
        have hp2 : p ≠ 2 := by omega
        have hco : Nat.Coprime (p ^ 2) (2 ^ fsE.length) :=
          Nat.Coprime.pow 2 fsE.length ((Nat.coprime_primes hpp Nat.prime_two).mpr hp2)
        have hsq' : p ^ 2 ∣ rE := by
          rw [hEeq, mul_comm] at hsq
          exact hco.dvd_of_dvd_mul_right hsq
        exact hdT hsq'

/-- Witness for C4 at table [3, 5], n = 9, p = 3: one 3 is emitted and the
residual 3 keeps the second copy. -/
theorem remove_small_factors_once_witness :
    (([3] : List ℕ).count 3 ≤ 1) ∧ ((3 : ℕ) ^ 2 ∣ 9 → (3 : ℕ) ∣ 3) :=
  remove_small_factors_once_per_odd_prime [3, 5] (by decide) (by decide) 3 (by decide)
    11 9 [3] 3 (by decide)

/-- C5: the modular-inverse command fails when n has no inverse modulo mod,
that is when n is not coprime with mod. -/
theorem mod_inverse_not_coprime (n m : ℕ) (h : Nat.gcd n m ≠ 1) :
    Modular_Inverse.go n m = none := by
  simp [Modular_Inverse.go, Modular_Inverse.inverse_mod, h]

/-- Witness for C5 at n = 4, mod = 8: gcd 4 8 = 4, the command fails. -/
theorem mod_inverse_not_coprime_witness :
    Nat.gcd 4 8 ≠ 1 ∧ Modular_Inverse.go 4 8 = none :=
  ⟨by decide, mod_inverse_not_coprime 4 8 (by decide)⟩

/-- C6 counterexample: the factor command does not reject input 0; the value
it passes to factorize on input 0 is 0 itself, which is not positive, so
the Orchestrator is invoked with a non-positive integer. -/
theorem factor_cmd_zero_reaches_orchestrator :
    Factor.goFactorizeArg 0 = 0 ∧ ¬ 0 < Factor.goFactorizeArg 0 := by decide

/-- C6 amended: the factor command surface performs no input validation:
the parsed integer reaches factorize unchanged for every input, and on
input 0 the small-factor even loop never exits (the embedded loop yields no
result for any fuel), so the Orchestrator never returns. -/
theorem factor_cmd_no_input_validation :
    (∀ n : ℕ, Factor.goFactorizeArg n = n) ∧
    (∀ fuel : ℕ, Factor.evenLoop fuel 0 = none) ∧
    (∀ (table : List ℕ) (fuel : ℕ) (seeds : List ℕ),
      Factor.factorize table fuel 0 seeds = none) := by
  refine ⟨fun n => rfl, Factor.evenLoop_zero, ?_⟩
  intro table fuel seeds
  simp [Factor.factorize, Factor.remove_small_factors, Factor.evenLoop_zero]

/-- C7: for every n that is itself a prime of the small-prime table, the
Orchestrator returns exactly the single-element list [n]. -/
theorem factorize_table_prime_singleton (table : List ℕ)
    (hT : ∀ q ∈ table, Nat.Prime q ∧ q % 2 = 1) (n : ℕ) (hmem : n ∈ table)
    (fuel : ℕ) (hf : 1 ≤ fuel) (seeds : List ℕ) :
    Factor.factorize table fuel n seeds = some ([n], seeds) := by
  obtain ⟨f, rfl⟩ : ∃ f, fuel = f + 1 := ⟨fuel - 1, by omega⟩
  have hp : Nat.Prime n := (hT n hmem).1
  have hodd : n % 2 = 1 := (hT n hmem).2
  have hTp : ∀ q ∈ table, Nat.Prime q := fun q hq => (hT q hq).1
  have hE : Factor.evenLoop (n + 2) n = some ([], n) :=
    Factor.evenLoop_odd n hodd (n + 2) (by omega)
  rcases Factor.tableLoop_prime_mem hp table hTp hmem (n + 2) (by omega) with hTb | hTb
  · have hrsf : Factor.remove_small_factors table (n + 2) n = some ([n], 1) := by
      simp only [Factor.remove_small_factors, hE, hTb]
      simp
    have hloop : Factor.facLoop table (f + 1) 1 seeds = some ([], seeds) := by
      simp [Factor.facLoop]
    simp only [Factor.factorize, hrsf, hloop]
    simp
  · have hrsf : Factor.remove_small_factors table (n + 2) n = some ([], n) := by
      simp only [Factor.remove_small_factors, hE, hTb]
      simp
    have hloop : Factor.facLoop table (f + 1) n seeds = some ([n], seeds) := by
      simp only [Factor.facLoop]
      rw [if_neg hp.ne_one,
        if_pos (show Factor.is_prime n = true by simp [Factor.is_prime, hp])]
    simp only [Factor.factorize, hrsf, hloop]
    simp

/-- Witness for C7 at the table [3, 5, 17] and its member 17. -/
theorem factorize_table_prime_singleton_witness :
    Factor.factorize [3, 5, 17] 1 17 [] = some ([17], []) :=
  factorize_table_prime_singleton [3, 5, 17] (by decide) 17 (by decide) 1 (by norm_num) []

/-- C8: for every even n > 1, the factor 2 appears in the Orchestrator's
returned list with multiplicity exactly the 2-adic valuation of n: the even
loop divides out every factor of 2, and no later stage emits a 2. -/
theorem factorize_two_multiplicity (table : List ℕ)
    (hT : ∀ q ∈ table, Nat.Prime q ∧ q % 2 = 1)
    (fuel n : ℕ) (seeds l s : List ℕ) (h2 : 2 ∣ n) (hn : 1 < n)
    (h : Factor.factorize table fuel n seeds = some (l, s)) :
    l.count 2 = padicValNat 2 n := by
  have hTp : ∀ q ∈ table, Nat.Prime q := fun q hq => (hT q hq).1
  simp only [Factor.factorize] at h
  split at h
  · exact absurd h (by simp)
  · rename_i sf r hsf
    split at h
    · exact absurd h (by simp)
    · rename_i l2 s2 hl2
      cases h
      simp only [Factor.remove_small_factors] at hsf
      split at hsf
      · exact absurd hsf (by simp)
      · rename_i fsE rE hE
        split at hsf
        · exact absurd hsf (by simp)
        · rename_i fsT rT hTb
          cases hsf
          obtain ⟨hE2, hEeq, hEodd⟩ := Factor.evenLoop_sound (n + 2) n fsE rE hE
          obtain ⟨hT1, hT2⟩ := Factor.tableLoop_sound table hTp (n + 2) rE fsT r hTb
          obtain ⟨hl2p, hl2m⟩ := Factor.facLoop_sound table hTp fuel r seeds l2 s hl2
          have hcE : fsE.count 2 = fsE.length := by
            rw [List.count_eq_length]
            intro b hb
            exact (hE2 b hb).symm
          have hcT : fsT.count 2 = 0 := by
            rw [List.count_eq_zero]
            intro hin
            have := (hT 2 (hT2 2 hin)).2
            omega
          have hrodd : r % 2 = 1 := by
            have hrd : r ∣ rE := ⟨fsT.prod, by rw [hT1]; ring⟩
            rcases Nat.mod_two_eq_zero_or_one r with h0 | h1
            · exfalso
              have h2rE : (2 : ℕ) ∣ rE := (Nat.dvd_of_mod_eq_zero h0).trans hrd
              omega
            · exact h1
          have hcL : l2.count 2 = 0 := by
            rw [List.count_eq_zero]
            intro hin
            have hdvd : (2 : ℕ) ∣ l2.prod := List.dvd_prod hin
            rw [hl2p] at hdvd
            omega
          rw [List.count_append, List.count_append, hcE, hcT, hcL, hEeq,
            Factor.padic_two_char fsE.length rE hEodd]
          omega

/-- Witness for C8 at table [3], n = 12 = 2 ^ 2 * 3. -/
theorem factorize_two_multiplicity_witness :
    ([2, 2, 3] : List ℕ).count 2 = padicValNat 2 12 :=
  factorize_two_multiplicity [3] (by decide) 1 12 [] [2, 2, 3] []
    (by norm_num) (by norm_num) (by decide)

/-- C9: product invariant of the Small-Factor Remover: for every positive n,
if the call returns the list F and leaves the residual r, then n equals r
times the product of F, and every entry of F is 2 or a table prime and
divides n. -/
theorem remove_small_factors_product_invariant (table : List ℕ)
    (hT : ∀ q ∈ table, Nat.Prime q) (fuel n : ℕ) (fs : List ℕ) (r : ℕ)
    (hpos : 0 < n)
    (h : Factor.remove_small_factors table fuel n = some (fs, r)) :
    n = r * fs.prod ∧ ∀ x ∈ fs, (x = 2 ∨ x ∈ table) ∧ x ∣ n := by
  obtain ⟨h1, h2⟩ := Factor.remove_small_factors_sound table hT fuel n fs r h
  exact ⟨by rw [h1]; ring, h2⟩

/-- Witness for C9 at table [3], n = 12: factors [2, 2, 3], residual 1. -/
theorem remove_small_factors_product_invariant_witness :
    (12 : ℕ) = 1 * ([2, 2, 3] : List ℕ).prod ∧
      ∀ x ∈ ([2, 2, 3] : List ℕ), (x = 2 ∨ x ∈ ([3] : List ℕ)) ∧ x ∣ 12 :=
  remove_small_factors_product_invariant [3] (by decide) 14 12 [2, 2, 3] 1
    (by norm_num) (by decide)

/-- C10: the factorization entry point works on a private copy of its
argument: the header value the factor command prints is the original parsed
input n, not a residual of the computation. -/
theorem factor_go_header (table : List ℕ) (fuel n : ℕ) (seeds : List ℕ)
    (hdr : ℕ) (l : List ℕ) (hg : Factor.go table fuel n seeds = some (hdr, l)) :
    hdr = n := by
  simp only [Factor.go] at hg
  split at hg
  · exact absurd hg (by simp)
  · cases hg
    rfl

/-- Witness for C10 at table [3], n = 12: the printed header is 12. -/
theorem factor_go_header_witness :
    Factor.go [3] 1 12 [] = some (12, [2, 2, 3]) ∧ (12 : ℕ) = 12 :=
  ⟨by decide, factor_go_header [3] 1 12 [] 12 [2, 2, 3] (by decide)⟩
